import Mathlib

/-!
Verification of the Gaussian filtering/smoothing transition algebra of the
probabilistic-numerics repository, as a shallow embedding in Lean 4.

The embedding follows the source files
`src/probnum/filtsmooth/statespace/discrete_transition.py`,
`src/probnum/filtsmooth/statespace/integrator.py`,
`src/probnum/filtsmooth/statespace/sde_utils.py`,
`src/probnum/randprocs/markov/integrator/_ioup.py`,
`src/probnum/randvars/_normal.py` and `src/probnum/_config.py`.
Matrices over numpy float arrays are embedded as Mathlib matrices over a field
(instantiated at ℚ for concrete evaluation, at ℝ where square roots occur);
time-dependent matrix-valued functions are resolved at the call time, so the
operations below take the already-evaluated matrices of the transition.
Helper modules of the repository that are not part of the provided sources
(`discrete_transition_utils`, the preconditioner module, `backend.linalg`) are
modelled from the specification; each such definition carries a doc comment
starting with: Modelled from the spec.
-/

set_option linter.unusedSectionVars false
set_option linter.unusedVariables false

namespace ProbNum

open Matrix

variable {K : Type} [Field K] [DecidableEq K]
variable {m n : ℕ}

/-- Computable matrix inverse mirroring `np.linalg.inv`: the adjugate formula
`det⁻¹ • adjugate`, which agrees with the Mathlib inverse. -/
def minv (A : Matrix (Fin n) (Fin n) K) : Matrix (Fin n) (Fin n) K :=
  (A.det)⁻¹ • A.adjugate

lemma minv_eq_inv (A : Matrix (Fin n) (Fin n) K) : minv A = A⁻¹ := by
  rw [Matrix.inv_def, minv, Ring.inverse_eq_inv]

lemma mul_minv_cancel {A : Matrix (Fin n) (Fin n) K} (hA : IsUnit A.det) :
    A * minv A = 1 := by
  rw [minv_eq_inv]
  exact Matrix.mul_nonsing_inv A hA

lemma minv_mul_cancel {A : Matrix (Fin n) (Fin n) K} (hA : IsUnit A.det) :
    minv A * A = 1 := by
  rw [minv_eq_inv]
  exact Matrix.nonsing_inv_mul A hA

/-- Gaussian belief: the mean/covariance pair carried by a `Normal` random
variable (`probnum.randvars.Normal` at a fixed, vector-shaped mean). -/
structure NormalRV (n : ℕ) (K : Type) where
  mean : Fin n → K
  cov : Matrix (Fin n) (Fin n) K

/-- The `info` dictionary returned by the forward operations of
`DiscreteLinearGaussian`: `crosscov` is always present, `gain` only when
`compute_gain=True`. -/
structure ForwardInfo (m n : ℕ) (K : Type) where
  crosscov : Matrix (Fin n) (Fin m) K
  gain : Option (Matrix (Fin n) (Fin m) K)

/-- Embeds `DiscreteLinearGaussian._forward_rv_classic`.  The arguments
`H`, `shift`, `R` are `state_trans_mat_fun(t)`, `shift_vec_fun(t)` and
`proc_noise_cov_mat_fun(t)` evaluated at the call time `t`. -/
def forwardRvClassic (H : Matrix (Fin m) (Fin n) K) (shift : Fin m → K)
    (R : Matrix (Fin m) (Fin m) K) (rv : NormalRV n K)
    (computeGain : Bool) (diff : K) : NormalRV m K × ForwardInfo m n K :=
  let newMean := H *ᵥ rv.mean + shift
  let crosscov := rv.cov * Hᵀ
  let newCov := H * crosscov + diff • R
  ⟨⟨newMean, newCov⟩,
   ⟨crosscov, if computeGain then some (crosscov * minv newCov) else none⟩⟩

/-- Modelled from the spec: `condition_state_on_rv` from the repository module
`discrete_transition_utils`, which is not among the provided sources.  It is
the standard Gaussian conditioning step used by `_backward_rv_classic`:
the mean update is the one the spec states
(`rv.mean + gain (rv_obtained.mean - forwarded mean)`), and the covariance
update is the general conditioning formula
`rv.cov + gain (rv_obtained.cov - rv_forwarded.cov) gainᵀ`, of which the
abbreviated formula in the spec (`rv.cov - gain rv_forwarded.cov gainᵀ`) is
the special case `rv_obtained.cov = 0`; the general form is the one consistent
with the Joseph formula the spec gives and with its requirement that all three
backward implementations agree. -/
def conditionStateOnRv (rvObt rvFwd : NormalRV m K) (rv : NormalRV n K)
    (gain : Matrix (Fin n) (Fin m) K) : NormalRV n K :=
  ⟨rv.mean + gain *ᵥ (rvObt.mean - rvFwd.mean),
   rv.cov + gain * (rvObt.cov - rvFwd.cov) * gainᵀ⟩

/-- Embeds `DiscreteGaussian._backward_rv_classic` (as inherited by
`DiscreteLinearGaussian` with the classic forward implementation): if either
`rv_forwarded` or `gain` is missing, both are recomputed through
`forward_rv(..., compute_gain=True)`. -/
def backwardRvClassic (H : Matrix (Fin m) (Fin n) K) (shift : Fin m → K)
    (R : Matrix (Fin m) (Fin m) K) (rvObt : NormalRV m K) (rv : NormalRV n K)
    (rvFwdOpt : Option (NormalRV m K))
    (gainOpt : Option (Matrix (Fin n) (Fin m) K)) (diff : K) : NormalRV n K :=
  match rvFwdOpt, gainOpt with
  | some rvFwd, some gain => conditionStateOnRv rvObt rvFwd rv gain
  | _, _ =>
    let fwd := forwardRvClassic H shift R rv true diff
    conditionStateOnRv rvObt fwd.1 rv (fwd.2.gain.getD 0)

/-- Embeds `DiscreteLinearGaussian._backward_rv_joseph`.  When `gain` is
missing it is recomputed through the (classic) forward pass, exactly as
`self.forward_rv(rv, t, compute_gain=True)` does for a transition whose
forward implementation is the default `classic`. -/
def backwardRvJoseph (H : Matrix (Fin m) (Fin n) K) (shift : Fin m → K)
    (R : Matrix (Fin m) (Fin m) K) (rvObt : NormalRV m K) (rv : NormalRV n K)
    (gainOpt : Option (Matrix (Fin n) (Fin m) K)) (diff : K) : NormalRV n K :=
  let gain := gainOpt.getD ((forwardRvClassic H shift R rv true diff).2.gain.getD 0)
  let Rd := diff • R
  let newMean := rv.mean + gain *ᵥ (rvObt.mean - H *ᵥ rv.mean - shift)
  let josephFactor := (1 : Matrix (Fin n) (Fin n) K) - gain * H
  ⟨newMean,
   josephFactor * rv.cov * josephFactorᵀ + gain * Rd * gainᵀ
     + gain * rvObt.cov * gainᵀ⟩

lemma forwardRvClassic_mean (H : Matrix (Fin m) (Fin n) K) (shift : Fin m → K)
    (R : Matrix (Fin m) (Fin m) K) (rv : NormalRV n K) (cg : Bool) (d : K) :
    (forwardRvClassic H shift R rv cg d).1.mean = H *ᵥ rv.mean + shift := rfl

/-- Embeds `DiscreteLinearGaussian._forward_rv_sqrt` with the output `Z` of the
QR-based Cholesky update supplied explicitly.  Modelled from the spec:
`cholesky_update` lives in the missing `discrete_transition_utils` module; the
spec describes it as a rank-preserving QR-based Cholesky update whose output
`Z = cholesky_update(H L, sqrt(diffusion) Lq)` is a factor of the forwarded
covariance, so theorems constrain `Z` by `Z Zᵀ = H Σ Hᵀ + diffusion Q`. -/
def forwardRvSqrtWith (H : Matrix (Fin m) (Fin n) K) (shift : Fin m → K)
    (Z : Matrix (Fin m) (Fin m) K) (rv : NormalRV n K)
    (computeGain : Bool) : NormalRV m K × ForwardInfo m n K :=
  let newMean := H *ᵥ rv.mean + shift
  let newCov := Z * Zᵀ
  let crosscov := rv.cov * Hᵀ
  ⟨⟨newMean, newCov⟩,
   ⟨crosscov, if computeGain then some (crosscov * minv newCov) else none⟩⟩

/-- Modelled from the spec: `triu_to_positive_tril` from the missing
`discrete_transition_utils` module converts the upper-triangular QR factor into
the lower-triangular Cholesky factor of the same Gram product, i.e. a matrix
`T` with `T Tᵀ = Uᵀ U`; the transpose satisfies this exactly (the sign
normalisation of the diagonal does not change the product). -/
def triuToPositiveTril (U : Matrix (Fin n) (Fin n) K) : Matrix (Fin n) (Fin n) K :=
  Uᵀ

/-- Embeds the block matrix assembled in
`DiscreteLinearGaussian._backward_rv_sqrt` (rows: past factor through the
dynamics and plain, process-noise factor, observed factor through the gain). -/
def sqrtBlockmat (H : Matrix (Fin m) (Fin n) K) (SCpast : Matrix (Fin n) (Fin n) K)
    (SR : Matrix (Fin m) (Fin m) K) (SCobt : Matrix (Fin m) (Fin m) K)
    (gain : Matrix (Fin n) (Fin m) K) :
    Matrix ((Fin n ⊕ Fin m) ⊕ Fin m) (Fin m ⊕ Fin n) K :=
  Matrix.fromRows
    (Matrix.fromRows (Matrix.fromColumns (SCpastᵀ * Hᵀ) SCpastᵀ)
      (Matrix.fromColumns SRᵀ 0))
    (Matrix.fromColumns 0 (SCobtᵀ * gainᵀ))

/-- Embeds `DiscreteLinearGaussian._backward_rv_sqrt` with the QR output
`bigTriu` of `np.linalg.qr(blockmat)` supplied explicitly (theorems constrain
it by the defining property of a QR factorisation of `sqrtBlockmat`).  The
`Z` argument feeds the square-root forward pass used to compute the gain when
it is not supplied and the observed covariance is nonzero, exactly as in the
source. -/
def backwardRvSqrtWith (H : Matrix (Fin m) (Fin n) K) (shift : Fin m → K)
    (rvObt : NormalRV m K) (rv : NormalRV n K)
    (Z : Matrix (Fin m) (Fin m) K)
    (bigTriu : Matrix (Fin m ⊕ Fin n) (Fin m ⊕ Fin n) K)
    (gainOpt : Option (Matrix (Fin n) (Fin m) K)) : NormalRV n K :=
  let gain := gainOpt.getD
    (if rvObt.cov = 0 then 0
     else (forwardRvSqrtWith H shift Z rv true).2.gain.getD 0)
  let SC := bigTriu.toBlocks₂₂
  let newMean := rv.mean + gain *ᵥ (rvObt.mean - H *ᵥ rv.mean - shift)
  let newCovCholesky := triuToPositiveTril SC
  ⟨newMean, newCovCholesky * newCovCholeskyᵀ⟩

/-- Error signalled by the unimplemented transition operations
(`NotImplementedError` in the source). -/
inductive TransitionError where
  | notImplemented
deriving DecidableEq

/-- Embeds `DiscreteGaussian.forward_realization`: pushes a point realization
through the (possibly nonlinear) dynamics `g` and attaches the scaled process
noise. -/
def dgForwardRealization (g : K → (Fin n → K) → Fin m → K)
    (procNoise : K → Matrix (Fin m) (Fin m) K)
    (real : Fin n → K) (t : K) (diff : K) :
    Except TransitionError (NormalRV m K) :=
  .ok ⟨g t real, diff • procNoise t⟩

/-- Embeds `DiscreteGaussian.forward_rv`: raises `NotImplementedError`. -/
def dgForwardRv (g : K → (Fin n → K) → Fin m → K)
    (procNoise : K → Matrix (Fin m) (Fin m) K)
    (rv : NormalRV n K) (t : K) (computeGain : Bool) (diff : K) :
    Except TransitionError (NormalRV m K × ForwardInfo m n K) :=
  .error .notImplemented

/-- Embeds `DiscreteGaussian.backward_realization`: raises
`NotImplementedError`. -/
def dgBackwardRealization (g : K → (Fin n → K) → Fin m → K)
    (procNoise : K → Matrix (Fin m) (Fin m) K)
    (realObtained : Fin m → K) (rv : NormalRV n K)
    (rvFwdOpt : Option (NormalRV m K))
    (gainOpt : Option (Matrix (Fin n) (Fin m) K)) (t : K) (diff : K) :
    Except TransitionError (NormalRV n K) :=
  .error .notImplemented

/-- Embeds `DiscreteGaussian.backward_rv`: raises `NotImplementedError`. -/
def dgBackwardRv (g : K → (Fin n → K) → Fin m → K)
    (procNoise : K → Matrix (Fin m) (Fin m) K)
    (rvObt : NormalRV m K) (rv : NormalRV n K)
    (rvFwdOpt : Option (NormalRV m K))
    (gainOpt : Option (Matrix (Fin n) (Fin m) K)) (t : K) (diff : K) :
    Except TransitionError (NormalRV n K) :=
  .error .notImplemented

/-!  Configuration (`src/probnum/_config.py`). -/

/-- Errors raised by attribute access on `Configuration`: `__setattr__` raises
`KeyError` for unknown entries, reading an entry that was never stored raises
`AttributeError`. -/
inductive ConfigError where
  | keyError
  | attributeError
deriving DecidableEq

/-- The attribute dictionary (`self.__dict__`) of the `Configuration`
singleton. -/
abbrev ConfigState (K : Type) : Type := List (String × K)

/-- Embeds `Configuration.register` exactly as written in the source: its body
is `pass`, so it discards the key, the default value and the docstring and
leaves the configuration dictionary unchanged. -/
def configRegister (st : ConfigState K) (key : String) (defaultValue : K)
    (docstring : String) : ConfigState K :=
  st

/-- Embeds attribute read (`getattr`) on `Configuration`: looks the key up in
the attribute dictionary and raises `AttributeError` when it is absent. -/
def configGetattr (st : ConfigState K) (key : String) : Except ConfigError K :=
  match List.lookup key st with
  | some v => .ok v
  | none => .error .attributeError

/-- Embeds `Configuration.__setattr__`: raises `KeyError` unless the entry was
already created, otherwise overwrites it. -/
def configSetattr (st : ConfigState K) (key : String) (v : K) :
    Except ConfigError (ConfigState K) :=
  if (List.lookup key st).isSome then
    .ok ((key, v) :: st)
  else
    .error .keyError

/-- Modelled from the spec: the behaviour `register` is documented to have (the
doctest of `Configuration` reads `covariance_inversion_damping` back as
`1e-12` after registration, and the spec says the damping constant is
registered and overridable at process scope): registering creates the entry
with its default value. -/
def configRegisterSpec (st : ConfigState K) (key : String) (defaultValue : K)
    (docstring : String) : ConfigState K :=
  (key, defaultValue) :: st

/-!  Normal construction shape check (`src/probnum/randvars/_normal.py`). -/

/-- A numpy array reduced to what the `Normal` constructor inspects: its shape
and flat data. -/
structure PyArray (K : Type) where
  shape : List ℕ
  data : List K

/-- `functools.reduce(operator.mul, mean.shape, 1)`: the flattened size. -/
def pySize (a : PyArray K) : ℕ :=
  a.shape.foldl (fun acc s => acc * s) 1

/-- The error class of the shape check in `Normal.__init__`
(`ValueError`). -/
inductive NormalInitError where
  | valueError
deriving DecidableEq

/-- Embeds the shape check at the top of `Normal.__init__`: the expected
covariance shape is `(size(mean), size(mean))` for a mean of positive
dimension and the scalar shape `()` otherwise, and a `ValueError` is raised
iff the covariance shape differs from it, before anything else is derived
from the inputs. -/
def normalInitCheck (mean cov : PyArray K) :
    Except NormalInitError (PyArray K × PyArray K) :=
  let expected : List ℕ :=
    if 0 < mean.shape.length then [pySize mean, pySize mean] else []
  if cov.shape ≠ expected then .error .valueError
  else .ok (mean, cov)

/-!  Integrator transitions (`src/probnum/filtsmooth/statespace/integrator.py`
and `src/probnum/randprocs/markov/integrator/_ioup.py`). -/

/-- Embeds `Integrator.proj2coord`: the column `coord` of `np.eye(ordint+1)`
reshaped to a row and Kronecker-multiplied by `np.eye(spatialdim)`. -/
def proj2coord (d q : ℕ) (coord : Fin (q + 1)) :
    Matrix (Fin d × Fin 1) (Fin d × Fin (q + 1)) K :=
  let projvec1d : Fin (q + 1) → K :=
    fun j => (1 : Matrix (Fin (q + 1)) (Fin (q + 1)) K) j coord
  let projmat1d : Matrix (Fin 1) (Fin (q + 1)) K :=
    Matrix.of fun _ j => projvec1d j
  Matrix.kroneckerMap (fun a b => a * b)
    (1 : Matrix (Fin d) (Fin d) K) projmat1d

/-- The projection matrix as the spec words it: `I_d ⊗ e_coordᵀ` with
`e_coord` the standard basis vector of length `q+1`. -/
def proj2coordSpec (d q : ℕ) (coord : Fin (q + 1)) :
    Matrix (Fin d × Fin 1) (Fin d × Fin (q + 1)) K :=
  Matrix.kroneckerMap (fun a b => a * b)
    (1 : Matrix (Fin d) (Fin d) K)
    (Matrix.of fun (_ : Fin 1) j => if j = coord then (1 : K) else 0)

/-- Embeds `IBM._driftmat`: `np.diag(np.ones(ordint), 1)` Kronecker-multiplied
by the identity. -/
def ibmDriftmat1d (q : ℕ) : Matrix (Fin (q + 1)) (Fin (q + 1)) K :=
  Matrix.of fun i j => if (j : ℕ) = (i : ℕ) + 1 then 1 else 0

def ibmDriftmat (q d : ℕ) :
    Matrix (Fin d × Fin (q + 1)) (Fin d × Fin (q + 1)) K :=
  Matrix.kroneckerMap (fun a b => a * b)
    (1 : Matrix (Fin d) (Fin d) K) (ibmDriftmat1d q)

/-- Embeds `IBM._forcevec`: `np.kron(np.ones(spatialdim), np.zeros(ordint+1))`. -/
def ibmForcevec (q d : ℕ) : Fin d × Fin (q + 1) → K :=
  fun p => (1 : K) * (fun _ : Fin (q + 1) => (0 : K)) p.2

/-- The one-dimensional dispersion row of the integrator processes:
`np.zeros(ordint+1)` with the last entry set to one, viewed as the
`(1, ordint+1)`-shaped factor of the Kronecker product. -/
def integratorDispRow (q : ℕ) : Matrix (Fin 1) (Fin (q + 1)) K :=
  Matrix.of fun _ j => if j = Fin.last q then 1 else 0

/-- Embeds `IBM._dispmat`: `np.kron(np.eye(spatialdim), dispmat_1d).T`. -/
def ibmDispmat (q d : ℕ) : Matrix (Fin d × Fin (q + 1)) (Fin d × Fin 1) K :=
  (Matrix.kroneckerMap (fun a b => a * b)
    (1 : Matrix (Fin d) (Fin d) K) (integratorDispRow q))ᵀ

/-- Embeds `IOUP._driftmat`: the IBM drift with the bottom-right entry of each
1-d block overwritten by `-driftspeed`. -/
def ioupDriftmat1d (q : ℕ) (driftspeed : K) :
    Matrix (Fin (q + 1)) (Fin (q + 1)) K :=
  Matrix.of fun i j =>
    if i = Fin.last q ∧ j = Fin.last q then -driftspeed
    else ibmDriftmat1d q i j

def ioupDriftmat (q d : ℕ) (driftspeed : K) :
    Matrix (Fin d × Fin (q + 1)) (Fin d × Fin (q + 1)) K :=
  Matrix.kroneckerMap (fun a b => a * b)
    (1 : Matrix (Fin d) (Fin d) K) (ioupDriftmat1d q driftspeed)

/-- Embeds `IOUP._forcevec` (identical construction to `IBM._forcevec`). -/
def ioupForcevec (q d : ℕ) : Fin d × Fin (q + 1) → K :=
  fun p => (1 : K) * (fun _ : Fin (q + 1) => (0 : K)) p.2

/-- Embeds `IOUP._dispmat` (identical construction to `IBM._dispmat`). -/
def ioupDispmat (q d : ℕ) : Matrix (Fin d × Fin (q + 1)) (Fin d × Fin 1) K :=
  (Matrix.kroneckerMap (fun a b => a * b)
    (1 : Matrix (Fin d) (Fin d) K) (integratorDispRow q))ᵀ

end ProbNum

namespace ProbNum

open Matrix

variable {K : Type} [Field K] [DecidableEq K]
variable {ι κ : Type} [Fintype ι] [Fintype κ] [DecidableEq ι] [DecidableEq κ]

/-- Embeds `_increment_fun` from `sde_utils.py` for a linear drift
`driftfun(t, m) = F m + u` with constant Jacobian `F` and dispersion `L`:
the mean increment is the drift and the covariance increment is
`cov @ jacobian.T + jacobian @ cov.T + diffusion * L @ L.T`. -/
def momentIncrement (F : Matrix ι ι K) (u : ι → K) (L : Matrix ι κ K)
    (diff : K) (mean : ι → K) (cov : Matrix ι ι K) :
    (ι → K) × Matrix ι ι K :=
  (F *ᵥ mean + u, cov * Fᵀ + F * covᵀ + diff • (L * Lᵀ))

/-!  Preconditioner (modelled) and the IBM equivalent discretisation. -/

/-- Modelled from the spec: the diagonal scaling vector of the Nordsieck-like
coordinate change, entry `i` rescaling the `i`-th derivative by
`sqrt(h) · h^(q-i) / (q-i)!`; the spec describes the preconditioner as the
per-step invertible rescaling into dt-independent (Nordsieck-like)
coordinates, and this is the unique diagonal scaling under which the
preconditioned IBM system given in the source discretises to the closed forms
the spec states. -/
noncomputable def preconScales (q : ℕ) (h : ℝ) : Fin (q + 1) → ℝ :=
  fun i => Real.sqrt h * h ^ (q - (i : ℕ)) / (Nat.factorial (q - (i : ℕ)))

/-- Modelled from the spec: `NordsieckLikeCoordinates(h)` as the Kronecker
product of the identity over the spatial dimension with the diagonal scaling,
i.e. a diagonal matrix constant across the `d` signals. -/
noncomputable def preconMat (d q : ℕ) (h : ℝ) :
    Matrix (Fin d × Fin (q + 1)) (Fin d × Fin (q + 1)) ℝ :=
  Matrix.diagonal fun p => preconScales q h p.2

/-- Modelled from the spec: the inverse coordinate change
`NordsieckLikeCoordinates.inverse(h)`, the entrywise reciprocal scaling. -/
noncomputable def preconInvMat (d q : ℕ) (h : ℝ) :
    Matrix (Fin d × Fin (q + 1)) (Fin d × Fin (q + 1)) ℝ :=
  Matrix.diagonal fun p => (preconScales q h p.2)⁻¹

/-- Embeds `IBM._state_trans_mat`: the binomial matrix
`binom(ordint-i, ordint-j)` Kronecker-multiplied by the identity (the state
transition matrix of the discretisation in the preconditioned space). -/
def ibmStateTransMatPre (q d : ℕ) :
    Matrix (Fin d × Fin (q + 1)) (Fin d × Fin (q + 1)) K :=
  Matrix.kroneckerMap (fun a b => a * b)
    (1 : Matrix (Fin d) (Fin d) K)
    (Matrix.of fun i j => (Nat.choose (q - (i : ℕ)) (q - (j : ℕ)) : K))

/-- Embeds `IBM._proc_noise_cov_mat`: entries
`1 / (2 ordint + 1 - i - j)` Kronecker-multiplied by the identity (the process
noise of the discretisation in the preconditioned space). -/
def ibmProcNoiseCovPre (q d : ℕ) :
    Matrix (Fin d × Fin (q + 1)) (Fin d × Fin (q + 1)) K :=
  Matrix.kroneckerMap (fun a b => a * b)
    (1 : Matrix (Fin d) (Fin d) K)
    (Matrix.of fun i j =>
      ((2 * (q : K) + 1 - (i : ℕ) - (j : ℕ)))⁻¹)

/-- Embeds the state transition matrix built by `IBM.discretise`:
`precon(step) @ state_trans_mat_preconditioned @ precon.inverse(step)`. -/
noncomputable def ibmDiscretiseA (q d : ℕ) (h : ℝ) :
    Matrix (Fin d × Fin (q + 1)) (Fin d × Fin (q + 1)) ℝ :=
  preconMat d q h * ibmStateTransMatPre q d * preconInvMat d q h

/-- Embeds the process-noise covariance built by `IBM.discretise`:
`precon(step) @ proc_noise_cov_mat_preconditioned @ precon(step).T`. -/
noncomputable def ibmDiscretiseQ (q d : ℕ) (h : ℝ) :
    Matrix (Fin d × Fin (q + 1)) (Fin d × Fin (q + 1)) ℝ :=
  preconMat d q h * ibmProcNoiseCovPre q d * (preconMat d q h)ᵀ

/-- The explicit transition matrix the spec states for `ordint=2`,
`spatialdim=1`. -/
noncomputable def ibmA3 (h : ℝ) : Matrix (Fin 3) (Fin 3) ℝ :=
  !![1, h, h ^ 2 / 2; 0, 1, h; 0, 0, 1]

/-- The explicit process-noise covariance the spec states for `ordint=2`,
`spatialdim=1`. -/
noncomputable def ibmQ3 (h : ℝ) : Matrix (Fin 3) (Fin 3) ℝ :=
  !![h ^ 5 / 20, h ^ 4 / 8, h ^ 3 / 6;
     h ^ 4 / 8, h ^ 3 / 3, h ^ 2 / 2;
     h ^ 3 / 6, h ^ 2 / 2, h]

/-!  System-matrix state of `IntegratedOrnsteinUhlenbeckTransition`
(`src/probnum/randprocs/markov/integrator/_ioup.py`). -/

/-- The mutable system-matrix attributes of the LTI SDE transition:
`drift_matrix`, `force_vector`, `dispersion_matrix`. -/
structure SysMatrices (d q : ℕ) where
  drift : Matrix (Fin d × Fin (q + 1)) (Fin d × Fin (q + 1)) ℝ
  force : Fin d × Fin (q + 1) → ℝ
  disp : Matrix (Fin d × Fin (q + 1)) (Fin d × Fin 1) ℝ

/-- Embeds the system-matrix mutations performed by
`IntegratedOrnsteinUhlenbeckTransition.forward_rv`: conjugation into the
preconditioned space on entry and the inverse conjugation before returning. -/
noncomputable def ioupForwardMatrixEffect (d q : ℕ) (dt : ℝ)
    (s : SysMatrices d q) : SysMatrices d q :=
  let P := preconMat d q dt
  let Pinv := preconInvMat d q dt
  let s1 : SysMatrices d q :=
    ⟨Pinv * s.drift * P, Pinv *ᵥ s.force, Pinv * s.disp⟩
  ⟨P * s1.drift * Pinv, P *ᵥ s1.force, P * s1.disp⟩

/-- Embeds the system-matrix mutations performed by
`IntegratedOrnsteinUhlenbeckTransition.backward_rv` (the same conjugation pair
as the forward pass). -/
noncomputable def ioupBackwardMatrixEffect (d q : ℕ) (dt : ℝ)
    (s : SysMatrices d q) : SysMatrices d q :=
  let P := preconMat d q dt
  let Pinv := preconInvMat d q dt
  let s1 : SysMatrices d q :=
    ⟨Pinv * s.drift * P, Pinv *ᵥ s.force, Pinv * s.disp⟩
  ⟨P * s1.drift * Pinv, P *ᵥ s1.force, P * s1.disp⟩

end ProbNum

namespace ProbNum

open Matrix

variable {K : Type} [Field K] [DecidableEq K]
variable {m n : ℕ}

/-- Claim C2: for every Normal belief and resolved transition matrices, the
classic forward operation returns the belief with mean `G μ + shift` and
covariance `G Σ Gᵀ + diffusion Q`; the info dictionary carries
`crosscov = Σ Gᵀ` on every call and, when the gain is requested,
`gain = (Σ Gᵀ) (forwarded covariance)⁻¹`. -/
theorem claimC2_forward_classic (H : Matrix (Fin m) (Fin n) K)
    (shift : Fin m → K) (R : Matrix (Fin m) (Fin m) K) (rv : NormalRV n K)
    (d : K) :
    (∀ cg, (forwardRvClassic H shift R rv cg d).1.mean = H *ᵥ rv.mean + shift)
    ∧ (∀ cg, (forwardRvClassic H shift R rv cg d).1.cov
        = H * rv.cov * Hᵀ + d • R)
    ∧ (∀ cg, (forwardRvClassic H shift R rv cg d).2.crosscov = rv.cov * Hᵀ)
    ∧ (forwardRvClassic H shift R rv true d).2.gain
        = some ((rv.cov * Hᵀ) * ((forwardRvClassic H shift R rv true d).1.cov)⁻¹) := by
  refine ⟨fun cg => rfl, fun cg => ?_, fun cg => rfl, ?_⟩
  · simp [forwardRvClassic, Matrix.mul_assoc]
  · simp [forwardRvClassic, minv_eq_inv]

/-- Claim C5: with the one-dimensional transition `G = [[1]]`, `shift = [0]`,
`Q = [[1]]` and the belief `Normal(0, 1)`, one classic forward step with unit
diffusion yields exactly `Normal(0, 2)`, and the subsequent Joseph backward
step conditioning on the exact observation `y = 1` (observed covariance zero)
returns a posterior mean strictly between 0 and 1 and a posterior covariance
strictly below 1. -/
theorem claimC5_end_to_end :
    (forwardRvClassic (K := ℚ) !![1] ![0] !![1] ⟨![0], !![1]⟩ false 1).1.mean = ![0]
    ∧ (forwardRvClassic (K := ℚ) !![1] ![0] !![1] ⟨![0], !![1]⟩ false 1).1.cov = !![2]
    ∧ 0 < (backwardRvJoseph (K := ℚ) !![1] ![0] !![1] ⟨![1], !![0]⟩ ⟨![0], !![1]⟩ none 1).mean 0
    ∧ (backwardRvJoseph (K := ℚ) !![1] ![0] !![1] ⟨![1], !![0]⟩ ⟨![0], !![1]⟩ none 1).mean 0 < 1
    ∧ (backwardRvJoseph (K := ℚ) !![1] ![0] !![1] ⟨![1], !![0]⟩ ⟨![0], !![1]⟩ none 1).cov 0 0 < 1 := by
  have hgain : ((forwardRvClassic (K := ℚ) !![1] ![0] !![1] ⟨![0], !![1]⟩ true 1).2.gain).getD 0
      = !![1 / 2] := by
    ext i j
    fin_cases i; fin_cases j
    norm_num [forwardRvClassic, minv, Matrix.det_fin_one, Matrix.adjugate_fin_one,
      Matrix.mul_apply, Fin.sum_univ_one, Matrix.smul_apply, Matrix.vecHead,
      Matrix.cons_val_fin_one]
  refine ⟨?_, ?_, ?_, ?_, ?_⟩
  · funext i
    fin_cases i
    norm_num [forwardRvClassic, Matrix.mulVec, dotProduct, Fin.sum_univ_one,
      Matrix.cons_val_fin_one]
  · ext i j
    fin_cases i; fin_cases j
    norm_num [forwardRvClassic, Matrix.mul_apply, Fin.sum_univ_one,
      Matrix.smul_apply, Matrix.vecHead, Matrix.cons_val_fin_one]
  · simp only [backwardRvJoseph, Option.getD_none, hgain]
    norm_num [Matrix.mulVec, dotProduct, Fin.sum_univ_one, Matrix.vecHead,
      Matrix.cons_val_fin_one]
  · simp only [backwardRvJoseph, Option.getD_none, hgain]
    norm_num [Matrix.mulVec, dotProduct, Fin.sum_univ_one, Matrix.vecHead,
      Matrix.cons_val_fin_one]
  · simp only [backwardRvJoseph, Option.getD_none, hgain]
    norm_num [Matrix.mul_apply, Fin.sum_univ_one, Matrix.smul_apply,
      Matrix.mulVec, dotProduct, Matrix.sub_apply, Matrix.one_apply,
      Matrix.vecHead, Matrix.cons_val_fin_one]

/-- Claim C8: a nonlinear Gaussian transition rejects every belief-level
operation (`forward_rv`, `backward_realization`, `backward_rv` all signal
not-implemented on all inputs), while `forward_realization` succeeds and
returns the Normal with mean `g(t, real)` and covariance
`diffusion · S(t)`. -/
theorem claimC8_nonlinear_ops (g : K → (Fin n → K) → Fin m → K)
    (S : K → Matrix (Fin m) (Fin m) K) :
    (∀ rv t cg diff, dgForwardRv g S rv t cg diff = .error .notImplemented)
    ∧ (∀ realObt rv rvFwdOpt gainOpt t diff,
        dgBackwardRealization g S realObt rv rvFwdOpt gainOpt t diff
          = .error .notImplemented)
    ∧ (∀ rvObt rv rvFwdOpt gainOpt t diff,
        dgBackwardRv g S rvObt rv rvFwdOpt gainOpt t diff
          = .error .notImplemented)
    ∧ (∀ real t diff, dgForwardRealization g S real t diff
        = .ok ⟨g t real, diff • S t⟩) :=
  ⟨fun _ _ _ _ => rfl, fun _ _ _ _ _ _ => rfl, fun _ _ _ _ _ _ => rfl,
   fun _ _ _ => rfl⟩

/-- Claim C3 (evidence of the code bug): `Configuration.register` as written
does nothing, so after registering the damping constant with its documented
default `1e-12` the attribute read still fails, contradicting the doctest of
`Configuration` and the spec; the spec-modelled `register` makes the same read
return the default, and `register` leaves every configuration state
unchanged. -/
theorem claimC3_register_noop :
    configGetattr (configRegister ([] : ConfigState ℚ)
        "covariance_inversion_damping" (1 / 10 ^ 12) "damping")
      "covariance_inversion_damping" = .error .attributeError
    ∧ configGetattr (configRegisterSpec ([] : ConfigState ℚ)
        "covariance_inversion_damping" (1 / 10 ^ 12) "damping")
      "covariance_inversion_damping" = .ok (1 / 10 ^ 12)
    ∧ ∀ (st : ConfigState ℚ) k v doc, configRegister st k v doc = st := by
  refine ⟨rfl, ?_, fun st k v doc => rfl⟩
  simp [configGetattr, configRegisterSpec, List.lookup]

/-- Claim C6: for every spatial dimension `d`, order `q` and coordinate
`i ≤ q`, `proj2coord(i)` is exactly the Kronecker product `I_d ⊗ e_iᵀ`, so
applying `proj2coord(0)` to a stacked state extracts the zeroth derivative of
every signal and `proj2coord(q)` extracts the highest derivative. -/
theorem claimC6_proj2coord (d q : ℕ) :
    (∀ coord : Fin (q + 1),
      proj2coord (K := K) d q coord = proj2coordSpec d q coord)
    ∧ (∀ x : Fin d × Fin (q + 1) → K, ∀ i : Fin d, ∀ u : Fin 1,
        ((proj2coord (K := K) d q 0) *ᵥ x) (i, u) = x (i, 0)
        ∧ ((proj2coord (K := K) d q (Fin.last q)) *ᵥ x) (i, u)
            = x (i, Fin.last q)) := by
  have key : ∀ (coord : Fin (q + 1)) (x : Fin d × Fin (q + 1) → K)
      (i : Fin d) (u : Fin 1),
      ((proj2coord (K := K) d q coord) *ᵥ x) (i, u) = x (i, coord) := by
    intro coord x i u
    simp only [proj2coord, Matrix.mulVec, dotProduct, Fintype.sum_prod_type,
      Matrix.kroneckerMap_apply, Matrix.of_apply, Matrix.one_apply]
    simp [ite_mul, mul_ite, Finset.sum_ite_eq, Finset.sum_ite_eq']
  refine ⟨fun coord => ?_, fun x i u => ⟨key 0 x i u, key (Fin.last q) x i u⟩⟩
  ext ⟨a, u⟩ ⟨b, j⟩
  simp [proj2coord, proj2coordSpec, Matrix.kroneckerMap_apply, Matrix.one_apply]

/-- Claim C7: an IOUP integrator with `driftspeed = 0` has exactly the drift
matrix, force vector and dispersion matrix of the IBM integrator of the same
order and spatial dimension, and consequently the one-step moment increments
(the forward output computed from those matrices) coincide. -/
theorem claimC7_ioup_reduces_to_ibm (q d : ℕ) :
    ioupDriftmat (K := K) q d 0 = ibmDriftmat q d
    ∧ ioupForcevec (K := K) q d = ibmForcevec q d
    ∧ ioupDispmat (K := K) q d = ibmDispmat q d
    ∧ ∀ (diff : K) (mean : Fin d × Fin (q + 1) → K)
        (cov : Matrix (Fin d × Fin (q + 1)) (Fin d × Fin (q + 1)) K),
        momentIncrement (ioupDriftmat q d 0) (ioupForcevec q d)
            (ioupDispmat q d) diff mean cov
          = momentIncrement (ibmDriftmat q d) (ibmForcevec q d)
              (ibmDispmat q d) diff mean cov := by
  have hdrift : ioupDriftmat (K := K) q d 0 = ibmDriftmat q d := by
    ext ⟨a, i⟩ ⟨b, j⟩
    simp only [ioupDriftmat, ibmDriftmat, Matrix.kroneckerMap_apply,
      ioupDriftmat1d, Matrix.of_apply]
    by_cases h : i = Fin.last q ∧ j = Fin.last q
    · obtain ⟨h1, h2⟩ := h
      subst h1; subst h2
      simp [ibmDriftmat1d]
    · simp [h]
  refine ⟨hdrift, rfl, rfl, fun diff mean cov => ?_⟩
  rw [hdrift]
  rfl

/-- Claim C10: constructing `Normal(mean, cov)` fails with the shape
`ValueError` exactly when the covariance shape differs from
`(size(mean), size(mean))` for a non-scalar mean (and from the scalar shape
for a scalar mean); the check happens before anything is built, and on
success the inputs pass through unchanged. -/
theorem claimC10_normal_shape_check (mean cov : PyArray K) :
    (normalInitCheck mean cov = .error .valueError ↔
      cov.shape ≠ (if mean.shape = [] then ([] : List ℕ)
        else [pySize mean, pySize mean]))
    ∧ (cov.shape = (if mean.shape = [] then ([] : List ℕ)
        else [pySize mean, pySize mean]) →
      normalInitCheck mean cov = .ok (mean, cov)) := by
  have hshape : (if 0 < mean.shape.length then [pySize mean, pySize mean]
        else ([] : List ℕ))
      = (if mean.shape = [] then ([] : List ℕ)
        else [pySize mean, pySize mean]) := by
    rcases eq_or_ne mean.shape [] with h | h
    · simp [h]
    · simp [h, List.length_pos.mpr h]
  have hcheck : normalInitCheck mean cov =
      if cov.shape ≠ (if mean.shape = [] then ([] : List ℕ)
        else [pySize mean, pySize mean]) then .error .valueError
      else .ok (mean, cov) := by
    simp only [normalInitCheck, hshape]
  rcases eq_or_ne cov.shape (if mean.shape = [] then ([] : List ℕ)
      else [pySize mean, pySize mean]) with h | h
  · refine ⟨?_, fun _ => ?_⟩
    · rw [hcheck]; simp [h]
    · rw [hcheck]; simp [h]
  · refine ⟨?_, fun hk => absurd hk h⟩
    rw [hcheck]; simp [h]

lemma preconScales_ne_zero (q : ℕ) (h : ℝ) (hh : 0 < h) (i : Fin (q + 1)) :
    preconScales q h i ≠ 0 := by
  have h1 : 0 < Real.sqrt h := Real.sqrt_pos.mpr hh
  have h2 : (0 : ℝ) < h ^ (q - (i : ℕ)) := pow_pos hh _
  have h3 : (0 : ℝ) < (Nat.factorial (q - (i : ℕ)) : ℝ) := by
    exact_mod_cast Nat.factorial_pos _
  unfold preconScales
  positivity

lemma precon_mul_inv (d q : ℕ) (h : ℝ) (hh : 0 < h) :
    preconMat d q h * preconInvMat d q h = 1 := by
  rw [preconMat, preconInvMat, Matrix.diagonal_mul_diagonal]
  rw [show (fun p : Fin d × Fin (q + 1) =>
      preconScales q h p.2 * (preconScales q h p.2)⁻¹)
    = fun _ => (1 : ℝ) from funext fun p =>
      mul_inv_cancel₀ (preconScales_ne_zero q h hh p.2)]
  exact Matrix.diagonal_one

lemma conj_restore {N : Type} [Fintype N] [DecidableEq N]
    (P Pinv A : Matrix N N ℝ) (h1 : P * Pinv = 1) :
    P * (Pinv * A * P) * Pinv = A := by
  rw [show P * (Pinv * A * P) * Pinv = P * Pinv * A * (P * Pinv) by
    simp only [Matrix.mul_assoc], h1, Matrix.one_mul, Matrix.mul_one]

/-- Claim C9: one call to the forward or backward operation of the
integrated Ornstein-Uhlenbeck transition leaves the transition object
unchanged: the preconditioning conjugation applied to the drift matrix, force
vector and dispersion matrix on entry is exactly undone before the call
returns, so repeated calls see the same system matrices. -/
theorem claimC9_transition_immutable (d q : ℕ) (dt : ℝ) (hdt : 0 < dt)
    (s : SysMatrices d q) :
    ioupForwardMatrixEffect d q dt s = s
    ∧ ioupBackwardMatrixEffect d q dt s = s := by
  have h1 : preconMat d q dt * preconInvMat d q dt = 1 :=
    precon_mul_inv d q dt hdt
  obtain ⟨A, u, L⟩ := s
  have hdrift : preconMat d q dt * (preconInvMat d q dt * A * preconMat d q dt)
      * preconInvMat d q dt = A := conj_restore _ _ _ h1
  have hforce : preconMat d q dt *ᵥ (preconInvMat d q dt *ᵥ u) = u := by
    rw [Matrix.mulVec_mulVec, h1, Matrix.one_mulVec]
  have hdisp : preconMat d q dt * (preconInvMat d q dt * L) = L := by
    rw [← Matrix.mul_assoc, h1, Matrix.one_mul]
  constructor
  · simp only [ioupForwardMatrixEffect, SysMatrices.mk.injEq]
    exact ⟨hdrift, hforce, hdisp⟩
  · simp only [ioupBackwardMatrixEffect, SysMatrices.mk.injEq]
    exact ⟨hdrift, hforce, hdisp⟩

/-- Witness for Claim C9: the identity of the effect, instantiated at
`d = q = 1`, step `dt = 1` and the zero system matrices. -/
theorem claimC9_witness :
    ioupForwardMatrixEffect 1 1 1 ⟨0, 0, 0⟩ = (⟨0, 0, 0⟩ : SysMatrices 1 1)
    ∧ ioupBackwardMatrixEffect 1 1 1 ⟨0, 0, 0⟩ = (⟨0, 0, 0⟩ : SysMatrices 1 1) :=
  claimC9_transition_immutable 1 1 1 one_pos ⟨0, 0, 0⟩

lemma ibmDiscretiseA_apply (q d : ℕ) (h : ℝ) (p r : Fin d × Fin (q + 1)) :
    ibmDiscretiseA q d h p r
      = preconScales q h p.2 * ibmStateTransMatPre q d p r
          * (preconScales q h r.2)⁻¹ := by
  simp [ibmDiscretiseA, preconMat, preconInvMat, Matrix.mul_diagonal,
    Matrix.diagonal_mul]

lemma ibmDiscretiseQ_apply (q d : ℕ) (h : ℝ) (p r : Fin d × Fin (q + 1)) :
    ibmDiscretiseQ q d h p r
      = preconScales q h p.2 * ibmProcNoiseCovPre q d p r
          * preconScales q h r.2 := by
  simp [ibmDiscretiseQ, preconMat, preconInvMat, Matrix.mul_diagonal,
    Matrix.diagonal_mul, Matrix.diagonal_transpose]

/-- Claim C4: for the IBM integrator with `ordint = 2` and `spatialdim = 1`,
the discretised transition for every step `h > 0` has exactly the state
transition matrix `[[1, h, h²/2], [0, 1, h], [0, 0, 1]]` and exactly the
process-noise covariance
`[[h⁵/20, h⁴/8, h³/6], [h⁴/8, h³/3, h²/2], [h³/6, h²/2, h]]`. -/
theorem claimC4_ibm_discretise (h : ℝ) (hh : 0 < h) :
    (∀ i j : Fin 3,
      ibmDiscretiseA 2 1 h ((0 : Fin 1), i) ((0 : Fin 1), j) = ibmA3 h i j)
    ∧ (∀ i j : Fin 3,
      ibmDiscretiseQ 2 1 h ((0 : Fin 1), i) ((0 : Fin 1), j) = ibmQ3 h i j) := by
  obtain ⟨s, hs0, rfl⟩ : ∃ s : ℝ, 0 < s ∧ h = s * s :=
    ⟨Real.sqrt h, Real.sqrt_pos.mpr hh, (Real.mul_self_sqrt hh.le).symm⟩
  have hsq : Real.sqrt (s * s) = s := Real.sqrt_mul_self hs0.le
  have hsne : s ≠ 0 := ne_of_gt hs0
  constructor
  · intro i j
    rw [ibmDiscretiseA_apply]
    fin_cases i <;> fin_cases j <;>
      simp only [ibmStateTransMatPre, Matrix.kroneckerMap_apply,
        Matrix.one_apply, Matrix.of_apply, preconScales, ibmA3, hsq,
        Matrix.vecHead, Matrix.vecTail, Matrix.cons_val_zero,
        Matrix.cons_val_one, Matrix.head_cons, Function.comp] <;>
      norm_num [Nat.factorial] <;>
      field_simp <;> ring
  · intro i j
    rw [ibmDiscretiseQ_apply]
    fin_cases i <;> fin_cases j <;>
      simp only [ibmProcNoiseCovPre, Matrix.kroneckerMap_apply,
        Matrix.one_apply, Matrix.of_apply, preconScales, ibmQ3, hsq,
        Matrix.vecHead, Matrix.vecTail, Matrix.cons_val_zero,
        Matrix.cons_val_one, Matrix.head_cons, Function.comp] <;>
      norm_num [Nat.factorial] <;>
      field_simp <;> ring

/-- Witness for Claim C4: the closed forms evaluated at the concrete step
`h = 1` on representative entries. -/
theorem claimC4_witness :
    ibmDiscretiseA 2 1 1 ((0 : Fin 1), 0) ((0 : Fin 1), 2) = ibmA3 1 0 2
    ∧ ibmDiscretiseQ 2 1 1 ((0 : Fin 1), 0) ((0 : Fin 1), 0) = ibmQ3 1 0 0 :=
  ⟨(claimC4_ibm_discretise 1 one_pos).1 0 2,
   (claimC4_ibm_discretise 1 one_pos).2 0 0⟩

lemma sqrtBlockmat_gram (H : Matrix (Fin m) (Fin n) K)
    (Lpast : Matrix (Fin n) (Fin n) K) (SR : Matrix (Fin m) (Fin m) K)
    (Lobt : Matrix (Fin m) (Fin m) K) (g : Matrix (Fin n) (Fin m) K) :
    (sqrtBlockmat H Lpast SR Lobt g)ᵀ * sqrtBlockmat H Lpast SR Lobt g
      = Matrix.fromBlocks
          (H * (Lpast * Lpastᵀ) * Hᵀ + SR * SRᵀ)
          (H * (Lpast * Lpastᵀ))
          ((Lpast * Lpastᵀ) * Hᵀ)
          (Lpast * Lpastᵀ + g * (Lobt * Lobtᵀ) * gᵀ) := by
  simp only [sqrtBlockmat, Matrix.transpose_fromRows, Matrix.transpose_fromColumns,
    Matrix.fromColumns_mul_fromRows, Matrix.fromRows_mul_fromColumns,
    Matrix.transpose_mul, Matrix.transpose_transpose, Matrix.transpose_zero,
    Matrix.mul_zero, Matrix.zero_mul, Matrix.fromBlocks_add,
    add_zero, zero_add]
  rw [Matrix.fromBlocks_inj]
  refine ⟨?_, ?_, ?_, ?_⟩ <;> simp only [Matrix.mul_assoc]

/-- Claim C1: on well-conditioned inputs (factored prior, process-noise and
observed covariances, invertible forwarded covariance, nonzero observed
covariance) the three backward implementations of `DiscreteLinearGaussian`
applied to the same `rv_obtained`, `rv` and `_diffusion` produce identical
posterior means and identical posterior covariances: the square-root update
(through any QR factorisation of its block matrix) and the Joseph update both
agree with the classic update. -/
theorem claimC1_backward_equivalence
    (H : Matrix (Fin m) (Fin n) K) (shift : Fin m → K)
    (R : Matrix (Fin m) (Fin m) K)
    (rvObt : NormalRV m K) (rv : NormalRV n K) (diff sqrtDiff : K)
    (Lpast : Matrix (Fin n) (Fin n) K) (LQ Lobt Z : Matrix (Fin m) (Fin m) K)
    (Qm : Matrix ((Fin n ⊕ Fin m) ⊕ Fin m) (Fin m ⊕ Fin n) K)
    (bigTriu : Matrix (Fin m ⊕ Fin n) (Fin m ⊕ Fin n) K)
    (hcov : rv.cov = Lpast * Lpastᵀ)
    (hobt : rvObt.cov = Lobt * Lobtᵀ)
    (hR : R = LQ * LQᵀ)
    (hdiff : sqrtDiff * sqrtDiff = diff)
    (hobtne : rvObt.cov ≠ 0)
    (hS : IsUnit (H * (rv.cov * Hᵀ) + diff • R).det)
    (hZ : Z * Zᵀ = H * (rv.cov * Hᵀ) + diff • R)
    (hQR : sqrtBlockmat H Lpast (sqrtDiff • LQ) Lobt
        ((rv.cov * Hᵀ) * minv (H * (rv.cov * Hᵀ) + diff • R)) = Qm * bigTriu)
    (hQorth : Qmᵀ * Qm = 1)
    (htri : bigTriu.toBlocks₂₁ = 0) :
    backwardRvSqrtWith H shift rvObt rv Z bigTriu none
      = backwardRvClassic H shift R rvObt rv none none diff
    ∧ backwardRvJoseph H shift R rvObt rv none diff
      = backwardRvClassic H shift R rvObt rv none none diff := by
  set S := H * (rv.cov * Hᵀ) + diff • R with hSdef
  set K0 := (rv.cov * Hᵀ) * minv S with hK0def
  -- symmetry facts
  have hcovT : rv.covᵀ = rv.cov := by rw [hcov]; simp [Matrix.transpose_mul]
  have hRT : Rᵀ = R := by rw [hR]; simp [Matrix.transpose_mul]
  have hST : Sᵀ = S := by
    rw [hSdef]
    simp [Matrix.transpose_add, Matrix.transpose_mul, Matrix.transpose_smul,
      hcovT, hRT, Matrix.mul_assoc]
  have hSinv : minv S * S = 1 := minv_mul_cancel hS
  have hminvT : (minv S)ᵀ = minv S := by
    rw [minv_eq_inv, Matrix.transpose_nonsing_inv, hST]
  have hK0S : K0 * S = rv.cov * Hᵀ := by
    rw [hK0def, Matrix.mul_assoc, hSinv, Matrix.mul_one]
  have hK0T : K0ᵀ = minv S * (H * rv.cov) := by
    rw [hK0def, Matrix.transpose_mul, hminvT, Matrix.transpose_mul,
      Matrix.transpose_transpose, hcovT]
  -- the common posterior covariance, in right-associated normal form
  have hT1 : K0 * (S * K0ᵀ) = rv.cov * (Hᵀ * (minv S * (H * rv.cov))) := by
    rw [← Matrix.mul_assoc, hK0S, hK0T, Matrix.mul_assoc]
  -- gain resolution in the three implementations
  have hgain_classic : (forwardRvClassic H shift R rv true diff).2.gain.getD 0
      = K0 := by
    simp [forwardRvClassic, hK0def, hSdef]
  have hgain_sqrt : (forwardRvSqrtWith H shift Z rv true).2.gain.getD 0
      = K0 := by
    simp [forwardRvSqrtWith, hZ, hK0def, hSdef]
  -- the classic backward result
  have hclassic : backwardRvClassic H shift R rvObt rv none none diff
      = ⟨rv.mean + K0 *ᵥ (rvObt.mean - (H *ᵥ rv.mean + shift)),
         rv.cov + K0 * (rvObt.cov - S) * K0ᵀ⟩ := by
    show conditionStateOnRv rvObt (forwardRvClassic H shift R rv true diff).1 rv
        ((forwardRvClassic H shift R rv true diff).2.gain.getD 0) = _
    rw [hgain_classic]
    simp only [conditionStateOnRv, forwardRvClassic, ← hSdef]
  have hclassic_cov : rv.cov + K0 * (rvObt.cov - S) * K0ᵀ
      = rv.cov - rv.cov * (Hᵀ * (minv S * (H * rv.cov)))
          + K0 * (rvObt.cov * K0ᵀ) := by
    simp only [Matrix.mul_sub, Matrix.sub_mul, Matrix.mul_assoc]
    rw [hT1]
    abel
  -- the square-root backward result
  have hsqrt : backwardRvSqrtWith H shift rvObt rv Z bigTriu none
      = ⟨rv.mean + K0 *ᵥ (rvObt.mean - H *ᵥ rv.mean - shift),
         bigTriu.toBlocks₂₂ᵀ * bigTriu.toBlocks₂₂⟩ := by
    simp only [backwardRvSqrtWith, Option.getD_none, if_neg hobtne, hgain_sqrt,
      triuToPositiveTril, Matrix.transpose_transpose]
  have hgram : bigTriuᵀ * bigTriu
      = Matrix.fromBlocks S (H * rv.cov) (rv.cov * Hᵀ)
          (rv.cov + K0 * (rvObt.cov * K0ᵀ)) := by
    have hb := sqrtBlockmat_gram H Lpast (sqrtDiff • LQ) Lobt K0
    rw [hQR, Matrix.transpose_mul, Matrix.mul_assoc,
      ← Matrix.mul_assoc Qmᵀ Qm bigTriu, hQorth, Matrix.one_mul] at hb
    rw [hb, ← hcov, ← hobt]
    have hSR : (sqrtDiff • LQ) * (sqrtDiff • LQ)ᵀ = diff • R := by
      rw [Matrix.transpose_smul, Matrix.smul_mul, Matrix.mul_smul, smul_smul,
        hdiff, hR]
    rw [hSR, Matrix.fromBlocks_inj]
    exact ⟨by rw [hSdef]; simp only [Matrix.mul_assoc], rfl, rfl,
      by simp only [Matrix.mul_assoc]⟩
  have hbt : bigTriu = Matrix.fromBlocks bigTriu.toBlocks₁₁ bigTriu.toBlocks₁₂
      0 bigTriu.toBlocks₂₂ := by
    conv_lhs => rw [← Matrix.fromBlocks_toBlocks bigTriu]
    rw [htri]
  have hgram2 : Matrix.fromBlocks
      (bigTriu.toBlocks₁₁ᵀ * bigTriu.toBlocks₁₁)
      (bigTriu.toBlocks₁₁ᵀ * bigTriu.toBlocks₁₂)
      (bigTriu.toBlocks₁₂ᵀ * bigTriu.toBlocks₁₁)
      (bigTriu.toBlocks₁₂ᵀ * bigTriu.toBlocks₁₂
        + bigTriu.toBlocks₂₂ᵀ * bigTriu.toBlocks₂₂)
      = Matrix.fromBlocks S (H * rv.cov) (rv.cov * Hᵀ)
          (rv.cov + K0 * (rvObt.cov * K0ᵀ)) := by
    rw [← hgram]
    conv_rhs => rw [hbt]
    rw [Matrix.fromBlocks_transpose, Matrix.fromBlocks_multiply]
    simp only [Matrix.transpose_zero, Matrix.zero_mul, Matrix.mul_zero,
      add_zero, zero_add]
  rw [Matrix.fromBlocks_inj] at hgram2
  obtain ⟨e11, e12, _, e22⟩ := hgram2
  have hdetR11 : IsUnit bigTriu.toBlocks₁₁.det := by
    have hdd : bigTriu.toBlocks₁₁.det * bigTriu.toBlocks₁₁.det = S.det := by
      calc bigTriu.toBlocks₁₁.det * bigTriu.toBlocks₁₁.det
          = (bigTriu.toBlocks₁₁ᵀ).det * bigTriu.toBlocks₁₁.det := by
            rw [Matrix.det_transpose]
        _ = (bigTriu.toBlocks₁₁ᵀ * bigTriu.toBlocks₁₁).det :=
            (Matrix.det_mul _ _).symm
        _ = S.det := by rw [e11]
    exact isUnit_of_mul_isUnit_left (hdd ▸ hS)
  have hdetT : IsUnit (bigTriu.toBlocks₁₁ᵀ).det := by
    rw [Matrix.det_transpose]; exact hdetR11
  have hR12 : bigTriu.toBlocks₁₂ = (bigTriu.toBlocks₁₁ᵀ)⁻¹ * (H * rv.cov) := by
    rw [← e12, ← Matrix.mul_assoc, Matrix.nonsing_inv_mul _ hdetT,
      Matrix.one_mul]
  have hcomb : bigTriu.toBlocks₁₁⁻¹ * (bigTriu.toBlocks₁₁ᵀ)⁻¹ = minv S := by
    rw [minv_eq_inv, ← Matrix.mul_inv_rev, e11]
  have hR12sq : bigTriu.toBlocks₁₂ᵀ * bigTriu.toBlocks₁₂
      = rv.cov * (Hᵀ * (minv S * (H * rv.cov))) := by
    rw [hR12, Matrix.transpose_mul, Matrix.transpose_mul,
      Matrix.transpose_nonsing_inv, Matrix.transpose_transpose, hcovT]
    calc rv.cov * Hᵀ * bigTriu.toBlocks₁₁⁻¹
          * ((bigTriu.toBlocks₁₁ᵀ)⁻¹ * (H * rv.cov))
        = rv.cov * (Hᵀ * ((bigTriu.toBlocks₁₁⁻¹ * (bigTriu.toBlocks₁₁ᵀ)⁻¹)
            * (H * rv.cov))) := by simp only [Matrix.mul_assoc]
      _ = rv.cov * (Hᵀ * (minv S * (H * rv.cov))) := by rw [hcomb]
  have hsqrt_cov : bigTriu.toBlocks₂₂ᵀ * bigTriu.toBlocks₂₂
      = rv.cov - rv.cov * (Hᵀ * (minv S * (H * rv.cov)))
          + K0 * (rvObt.cov * K0ᵀ) := by
    rw [hR12sq] at e22
    have h2 : bigTriu.toBlocks₂₂ᵀ * bigTriu.toBlocks₂₂
        = rv.cov + K0 * (rvObt.cov * K0ᵀ)
            - rv.cov * (Hᵀ * (minv S * (H * rv.cov))) := by
      rw [← e22]; abel
    rw [h2]; abel
  -- the Joseph backward result
  have hjoseph : backwardRvJoseph H shift R rvObt rv none diff
      = ⟨rv.mean + K0 *ᵥ (rvObt.mean - H *ᵥ rv.mean - shift),
         ((1 : Matrix (Fin n) (Fin n) K) - K0 * H) * rv.cov
             * ((1 : Matrix (Fin n) (Fin n) K) - K0 * H)ᵀ
           + K0 * (diff • R) * K0ᵀ + K0 * rvObt.cov * K0ᵀ⟩ := by
    simp only [backwardRvJoseph, Option.getD_none, hgain_classic]
  have hjoseph_cov : ((1 : Matrix (Fin n) (Fin n) K) - K0 * H) * rv.cov
        * ((1 : Matrix (Fin n) (Fin n) K) - K0 * H)ᵀ
      + K0 * (diff • R) * K0ᵀ + K0 * rvObt.cov * K0ᵀ
      = rv.cov - rv.cov * (Hᵀ * (minv S * (H * rv.cov)))
          + K0 * (rvObt.cov * K0ᵀ) := by
    have hSsplit : K0 * (H * (rv.cov * (Hᵀ * K0ᵀ))) + K0 * ((diff • R) * K0ᵀ)
        = K0 * (S * K0ᵀ) := by
      rw [hSdef, Matrix.add_mul, Matrix.mul_add]
      simp only [Matrix.mul_assoc]
    have hK0HC : K0 * (H * rv.cov)
        = rv.cov * (Hᵀ * (minv S * (H * rv.cov))) := by
      rw [hK0def]; simp only [Matrix.mul_assoc]
    have hCHK0T : rv.cov * (Hᵀ * K0ᵀ)
        = rv.cov * (Hᵀ * (minv S * (H * rv.cov))) := by rw [hK0T]
    have ht : ((1 : Matrix (Fin n) (Fin n) K) - K0 * H)ᵀ = 1 - Hᵀ * K0ᵀ := by
      rw [Matrix.transpose_sub, Matrix.transpose_one, Matrix.transpose_mul]
    rw [ht]
    have hexpand : ((1 : Matrix (Fin n) (Fin n) K) - K0 * H) * rv.cov
          * ((1 : Matrix (Fin n) (Fin n) K) - Hᵀ * K0ᵀ)
        = rv.cov - rv.cov * (Hᵀ * K0ᵀ) - K0 * (H * rv.cov)
          + K0 * (H * (rv.cov * (Hᵀ * K0ᵀ))) := by
      simp only [Matrix.sub_mul, Matrix.mul_sub, Matrix.one_mul,
        Matrix.mul_one, Matrix.mul_assoc]
      abel
    rw [hexpand, Matrix.mul_assoc K0 (diff • R) K0ᵀ,
      Matrix.mul_assoc K0 rvObt.cov K0ᵀ]
    have hstep : rv.cov - rv.cov * (Hᵀ * K0ᵀ) - K0 * (H * rv.cov)
          + K0 * (H * (rv.cov * (Hᵀ * K0ᵀ))) + K0 * ((diff • R) * K0ᵀ)
          + K0 * (rvObt.cov * K0ᵀ)
        = rv.cov - rv.cov * (Hᵀ * K0ᵀ) - K0 * (H * rv.cov)
          + (K0 * (H * (rv.cov * (Hᵀ * K0ᵀ))) + K0 * ((diff • R) * K0ᵀ))
          + K0 * (rvObt.cov * K0ᵀ) := by abel
    rw [hstep, hSsplit, hT1, hK0HC, hCHK0T]
    abel
  -- assemble
  have hmean : rvObt.mean - (H *ᵥ rv.mean + shift)
      = rvObt.mean - H *ᵥ rv.mean - shift := by
    rw [sub_add_eq_sub_sub]
  constructor
  · rw [hsqrt, hclassic]
    simp only [NormalRV.mk.injEq]
    exact ⟨by rw [hmean], by rw [hsqrt_cov, hclassic_cov]⟩
  · rw [hjoseph, hclassic]
    simp only [NormalRV.mk.injEq]
    refine ⟨by rw [hmean], ?_⟩
    rw [hjoseph_cov, hclassic_cov]

/-- Witness for Claim C1: the equivalence applied to the concrete
one-dimensional transition `H = [[1]]`, zero shift, zero process noise with
unit diffusion, prior `Normal(0, 1)`, observed belief `Normal(0, 1)`, and the
explicit QR factorisation of the corresponding block matrix. -/
theorem claimC1_witness :
    backwardRvSqrtWith (K := ℚ) !![1] ![0] ⟨![0], !![1]⟩ ⟨![0], !![1]⟩ !![1]
        (Matrix.fromBlocks !![1] !![1] 0 !![1]) none
      = backwardRvClassic !![1] ![0] !![0] ⟨![0], !![1]⟩ ⟨![0], !![1]⟩
          none none 1
    ∧ backwardRvJoseph (K := ℚ) !![1] ![0] !![0] ⟨![0], !![1]⟩ ⟨![0], !![1]⟩
        none 1
      = backwardRvClassic !![1] ![0] !![0] ⟨![0], !![1]⟩ ⟨![0], !![1]⟩
          none none 1 := by
  have h1 : (!![1] : Matrix (Fin 1) (Fin 1) ℚ) * !![1]ᵀ = !![1] := by
    ext i j
    fin_cases i; fin_cases j
    norm_num [Matrix.mul_apply, Fin.sum_univ_one]
  have h0 : (!![0] : Matrix (Fin 1) (Fin 1) ℚ) * !![0]ᵀ = !![0] := by
    ext i j
    fin_cases i; fin_cases j
    norm_num [Matrix.mul_apply, Fin.sum_univ_one]
  have hSval : (!![1] : Matrix (Fin 1) (Fin 1) ℚ) * (!![1] * !![1]ᵀ)
      + (1 : ℚ) • !![0] = !![1] := by
    rw [h1]
    ext i j
    fin_cases i; fin_cases j
    norm_num [Matrix.mul_apply, Fin.sum_univ_one, Matrix.smul_apply]
  have hm1 : minv (!![1] : Matrix (Fin 1) (Fin 1) ℚ) = !![1] := by
    rw [minv]
    ext i j
    fin_cases i; fin_cases j
    norm_num [Matrix.det_fin_one, Matrix.adjugate_fin_one, Matrix.smul_apply,
      Matrix.one_apply]
  have h11 : (!![1] : Matrix (Fin 1) (Fin 1) ℚ) * !![1] = !![1] := by
    ext i j
    fin_cases i; fin_cases j
    norm_num [Matrix.mul_apply, Fin.sum_univ_one]
  have hadd : (!![1] : Matrix (Fin 1) (Fin 1) ℚ) + (1 : ℚ) • !![0] = !![1] := by
    ext i j
    fin_cases i; fin_cases j
    norm_num [Matrix.smul_apply]
  have hK0val : ((!![1] : Matrix (Fin 1) (Fin 1) ℚ) * !![1]ᵀ)
      * minv (!![1] * (!![1] * !![1]ᵀ) + (1 : ℚ) • !![0]) = !![1] := by
    rw [h1, h11, hadd, hm1, h11]
  refine claimC1_backward_equivalence !![1] ![0] !![0] ⟨![0], !![1]⟩
    ⟨![0], !![1]⟩ 1 1 !![1] !![0] !![1] !![1]
    (Matrix.fromRows (Matrix.fromRows (Matrix.fromColumns !![1] !![0])
      (Matrix.fromColumns !![0] !![0])) (Matrix.fromColumns !![0] !![1]))
    (Matrix.fromBlocks !![1] !![1] 0 !![1])
    h1.symm h1.symm h0.symm (by norm_num) ?_ ?_ ?_ ?_ ?_ ?_
  · intro hcontra
    have hc := congrArg (fun M : Matrix (Fin 1) (Fin 1) ℚ => M 0 0) hcontra
    norm_num at hc
  · show IsUnit (!![1] * ((!![1] : Matrix (Fin 1) (Fin 1) ℚ) * !![1]ᵀ)
      + (1 : ℚ) • !![0]).det
    rw [hSval]
    simp [Matrix.det_fin_one]
  · show (!![1] : Matrix (Fin 1) (Fin 1) ℚ) * !![1]ᵀ
      = !![1] * (!![1] * !![1]ᵀ) + (1 : ℚ) • !![0]
    rw [h1, h11, hadd]
  · show sqrtBlockmat (!![1] : Matrix (Fin 1) (Fin 1) ℚ) !![1]
        ((1 : ℚ) • !![0]) !![1] (!![1] * !![1]ᵀ
          * minv (!![1] * (!![1] * !![1]ᵀ) + (1 : ℚ) • !![0])) = _
    rw [hK0val]
    ext i j
    rcases i with i | i
    · rcases i with i | i <;> rcases j with j | j <;>
        fin_cases i <;> fin_cases j <;>
        norm_num [sqrtBlockmat, Matrix.fromRows, Matrix.fromColumns,
          Matrix.fromBlocks, Matrix.mul_apply, Fintype.sum_sum_type,
          Fin.sum_univ_one, Matrix.smul_apply, Matrix.transpose_apply]
    · rcases j with j | j <;> fin_cases i <;> fin_cases j <;>
        norm_num [sqrtBlockmat, Matrix.fromRows, Matrix.fromColumns,
          Matrix.fromBlocks, Matrix.mul_apply, Fintype.sum_sum_type,
          Fin.sum_univ_one, Matrix.smul_apply, Matrix.transpose_apply]
  · ext i j
    rcases i with i | i <;> rcases j with j | j <;>
      fin_cases i <;> fin_cases j <;>
      norm_num [Matrix.fromRows, Matrix.fromColumns, Matrix.mul_apply,
        Fintype.sum_sum_type, Fin.sum_univ_one, Matrix.one_apply,
        Matrix.transpose_apply, Sum.inl_ne_inr, Sum.inr_ne_inl]
  · simp [Matrix.toBlocks_fromBlocks₂₁]

/-- Witness for Claim C10: a concrete mean of shape `(2,)` with a well-shaped
`2×2` covariance passes the check, and with a `3×2`-shaped covariance the
constructor raises the shape `ValueError`. -/
theorem claimC10_witness :
    normalInitCheck (K := ℚ) ⟨[2], [0, 0]⟩ ⟨[2, 2], [1, 0, 0, 1]⟩
      = .ok (⟨[2], [0, 0]⟩, ⟨[2, 2], [1, 0, 0, 1]⟩)
    ∧ normalInitCheck (K := ℚ) ⟨[2], [0, 0]⟩ ⟨[3, 2], [1, 0, 0, 1, 0, 0]⟩
      = .error .valueError := by
  constructor
  · exact (claimC10_normal_shape_check ⟨[2], [0, 0]⟩ ⟨[2, 2], [1, 0, 0, 1]⟩).2
      (by norm_num [pySize])
  · exact (claimC10_normal_shape_check ⟨[2], [0, 0]⟩
      ⟨[3, 2], [1, 0, 0, 1, 0, 0]⟩).1.mpr (by norm_num [pySize])

end ProbNum
